import Mathlib

/-!
Verification of the compute-unit mask sweep driver
(`src/scripts/test_cu_mask.py`).

The Python script is embedded shallowly:

* Python arbitrary-precision integers that stay nonnegative are `Nat`;
  values produced by Python's `~` (bitwise complement, which is negative
  on nonnegative inputs) are `Int`, with `~x = -x - 1`.
* The mutable per-group topology list (`info = pysmctrl.get_gpc_info(dev)`)
  is passed explicitly as a `List Nat` and threaded through the loop.
* The inner `while next_bit == 0` scan of the striped allocator does not
  terminate when every group mask is zero; it is modelled by a scan with
  fuel `len(info)` (one full cycle over the groups): if a full cycle finds
  no set bit, no further cycle can, so returning `none` after one full
  empty cycle is exactly the divergence of the Python loop.
* `subprocess` effects are modelled by the configuration payload that
  would be written to the Runner's stdin.
-/

set_option maxRecDepth 10000

namespace CuMask

/-! ## Bit-level groundwork -/

/-- Number of set bits of a natural number (`bin(n).count("1")` in Python
for a nonnegative `n`). -/
def popcount : Nat → Nat
  | 0 => 0
  | n+1 => popcount ((n+1) / 2) + (n+1) % 2
decreasing_by exact Nat.div_lt_self (Nat.succ_pos n) Nat.one_lt_two

/-- The finite set of set-bit positions of a natural number. -/
def bits (n : Nat) : Finset ℕ :=
  (Finset.range (n+1)).filter (fun i => n.testBit i)

/-- Python's `mask & (-mask)` on a nonnegative arbitrary-precision integer:
in two's complement `-m = ~(m-1)`, so `m & -m = m & ~(m-1)`, which on
naturals is `m - (m &&& (m-1))` (AND-ing with `m-1` clears exactly the
lowest set bit).  This isolates the lowest set bit, `0` when `m = 0`. -/
def lowBit (m : Nat) : Nat := m - (m &&& (m - 1))

/-! ## Embedding of src/scripts/test_cu_mask.py -/

/-- Python's bitwise complement `~x` on arbitrary-precision integers. -/
def pyNot (x : Int) : Int := -x - 1

/-- Python's `x & 0xffffffffffffffff`: under Python's two's-complement
semantics of `&`, AND-ing any integer with the all-ones 64-bit mask is
reduction mod `2^64`. -/
def toU64 (x : Int) : Nat := (x % (2 ^ 64 : Int)).toNat

/-- Hex digit characters as produced by Python's `"%x"` (lowercase). -/
def hexChar (d : Nat) : Char :=
  if d < 10 then Char.ofNat (48 + d) else Char.ofNat (87 + d)

/-- Value of a hex digit character as parsed by Python's `int(s, 16)`. -/
def hexVal (c : Char) : Nat :=
  if 97 ≤ c.toNat then c.toNat - 87 else c.toNat - 48

/-- Fixed-width base-16 digits of `n`, most significant first. -/
def natToDigitsBE : Nat → Nat → List Nat
  | 0, _ => []
  | w+1, n => (n / 16 ^ w % 16) :: natToDigitsBE w n

/-- `cu_mask_to_hex_string`: Python's `"%016x" % (int_cu_mask & 0xffffffffffffffff)`.
The masked value is `< 2^64 = 16^16`, so the zero-padded width-16 `%016x`
conversion is exactly the 16 fixed-width base-16 digits, most significant
first. -/
def cu_mask_to_hex_string (int_cu_mask : Int) : String :=
  String.mk ((natToDigitsBE 16 (toU64 int_cu_mask)).map hexChar)

/-- Python's `int(s, 16)` on a string of hex digits. -/
def decodeHex (s : String) : Nat :=
  s.data.foldl (fun a c => 16 * a + hexVal c) 0

/-- Python's `bin(x).count("1")`: for a negative `x`, `bin` renders a minus
sign and `0b` followed by the binary digits of `|x|`, so the count of `1`
characters is the popcount of the absolute value; for nonnegative `x` it is
the popcount of `x`. -/
def pyBinCount (x : Int) : Nat := popcount x.natAbs

/-- The `additional_info` dict of the plugin config. -/
structure AdditionalInfo where
  matrix_width : Nat
  skip_copy : Bool
deriving DecidableEq

/-- The single benchmark entry built by `generate_config`. -/
structure PluginConfig where
  label : String
  log_name : String
  filename : String
  thread_count : List Nat
  block_count : Nat
  sm_mask : String
  data_size : Nat
  additional_info : AdditionalInfo
deriving DecidableEq

/-- The overall configuration dict built by `generate_config`. -/
structure OverallConfig where
  name : String
  max_iterations : Nat
  max_time : Nat
  cuda_device : Nat
  pin_cpus : Bool
  do_warmup : Bool
  benchmarks : List PluginConfig
deriving DecidableEq

/-- `generate_config(cu_mask, striped)`.  The JSON dict is modelled by the
record itself; `json.dumps` serialisation is a bijective rendering of the
record and carries no logic of its own. -/
def generate_config (cu_mask : Int) (striped : Bool) : OverallConfig :=
  let active_cu_count := pyBinCount (pyNot cu_mask)
  let hex_mask := cu_mask_to_hex_string cu_mask
  let plugin_config : PluginConfig :=
    { label := toString active_cu_count
      log_name := "cu_mask_" ++ (if striped then "striped_" ++ hex_mask else hex_mask) ++ ".json"
      filename := "./bin/matrix_multiply.so"
      thread_count := [32, 32]
      block_count := 1
      sm_mask := hex_mask
      data_size := 0
      additional_info := { matrix_width := 1024, skip_copy := true } }
  { name := "Compute Unit Count vs. Performance" ++ (if striped then " (striped)" else "")
    max_iterations := 100
    max_time := 0
    cuda_device := 0
    pin_cpus := true
    do_warmup := true
    benchmarks := [plugin_config] }

/-- Python runtime errors relevant to this script. -/
inductive PyError where
  | nameError
deriving DecidableEq

/-- `run_process(int_cu_mask, striped)`.  The source builds the config from
the module-level global `cu_mask`, not from its `int_cu_mask` parameter:
`config = generate_config(cu_mask, striped)`.  The global (if bound) is the
`global_cu_mask` argument, `none` when no global of that name is in scope,
in which case Python raises `NameError` at the `generate_config` call.  On
success the result is the payload written to the Runner's stdin together
with the message printed (which does use the parameter). -/
def run_process (global_cu_mask : Option Int) (int_cu_mask : Int) (striped : Bool) :
    Except PyError (OverallConfig × String) :=
  match global_cu_mask with
  | none => .error .nameError
  | some g =>
      .ok (generate_config g striped,
        "Starting test with CU mask " ++ cu_mask_to_hex_string int_cu_mask)

/-- The contiguous accumulator of `get_cu_mask`:
`for b in range(active_cus): res = res << 1; res |= 1`. -/
def contigMask : Nat → Nat
  | 0 => 0
  | b+1 => (contigMask b <<< 1) ||| 1

/-- One pass of the striped allocator's inner `while next_bit == 0` scan:
look at group `g`, take `info[g] & (-info[g])` if nonzero, else move on to
`(g + 1) % len(info)`.  The Python loop leaves `next_gpc` pointing one past
the group used (it writes to `info[next_gpc-1]`, Python's index `-1`
wrapping to the last element); here the used group index `u` is returned
and the caller advances the cursor to `(u + 1) % len`, which is the same
cursor value.  `fuel` bounds the scan: one full cycle (`len(info)` probes)
visits every group, after which the Python loop can never terminate, so
`none` models its divergence. -/
def findNext (info : List Nat) : Nat → Nat → Option (Nat × Nat)
  | _, 0 => none
  | g, fuel+1 =>
    if lowBit (info.getD g 0) = 0 then findNext info ((g + 1) % info.length) fuel
    else some (g, lowBit (info.getD g 0))

/-- The striped branch of `get_cu_mask`: `for b in range(active_cus)`, each
iteration taking the lowest available bit of the next available group in
round-robin order, clearing it from that group
(`info[next_gpc-1] -= next_bit`) and OR-ing it into `res`.  Returns the
final `res` together with the consumed topology and cursor, or `none` when
the inner scan diverges. -/
def stripeLoop : Nat → List Nat → Nat → Nat → Option (Nat × List Nat × Nat)
  | 0, info, g, res => some (res, info, g)
  | b+1, info, g, res =>
    match findNext info g info.length with
    | none => none
    | some (u, next_bit) =>
        stripeLoop b (info.set u (info.getD u 0 - next_bit))
          ((u + 1) % info.length) (res ||| next_bit)

/-- `get_cu_mask(active_cus, total_cus, striped, dev)`.  The topology
`info` stands for the value of `pysmctrl.get_gpc_info(dev)` (which the
striped branch queries fresh inside each call); `total_cus` is accepted and
never used, exactly as in the source.  Returns `~res`, or `none` when the
striped scan diverges. -/
def get_cu_mask (active_cus total_cus : Nat) (striped : Bool) (info : List Nat) :
    Option Int :=
  if striped then
    match stripeLoop active_cus info 0 0 with
    | none => none
    | some (res, _, _) => some (pyNot (res : Int))
  else
    some (pyNot (contigMask active_cus : Int))

/-- The Runner invocation of one sweep step: the payload delivered to the
Runner's stdin, or `none` when the allocation never returns (in which case
the Runner subprocess is never started).  In the main loop the global
`cu_mask` holds exactly the step's freshly computed mask, hence the payload
is built from that same mask. -/
def runnerPayload (active total : Nat) (striped : Bool) (info : List Nat) :
    Option OverallConfig :=
  match get_cu_mask active total striped info with
  | none => none
  | some m => some (generate_config m striped)

/-- Python's `range(a, b)` over integers, as a list. -/
def pyRangeI (a b : Int) : List Int :=
  (List.range (b - a).toNat).map (fun k => a + (k : Int))

/-- The sweep loop of `__main__`:
`for active_cus in range(start_count, cu_count)`, each iteration computing
`cu_mask = get_cu_mask(active_cus + 1, cu_count, stripe, dev)` and then
calling `run_process(cu_mask, stripe)` and blocking on the subprocess.
Each list entry is one step, in execution order: the requested active-unit
count `active_cus + 1` paired with the mask computed for it from a full,
unconsumed topology (the striped branch re-queries the topology inside
every call).  Python's `range(n)` inside `get_cu_mask` is empty for
negative `n`, which `Int.toNat` reproduces. -/
def sweepSteps (start_count cu_count : Int) (striped : Bool) (info : List Nat) :
    List (Int × Option Int) :=
  (pyRangeI start_count cu_count).map
    (fun active_cus =>
      (active_cus + 1,
        get_cu_mask (active_cus + 1).toNat cu_count.toNat striped info))

/-- The sweep with each step's Runner exit status made explicit: step `i`'s
subprocess exits with status `exitCodes i`.  `run_process` calls
`process.communicate(...)` and never reads `process.returncode`, and the
`for` loop continues unconditionally, so which steps execute and which
payloads are delivered cannot depend on the exit codes; every entry records
the step's requested count, its delivered payload and the (ignored) exit
status of its Runner. -/
def sweepWithExits (start_count cu_count : Int) (striped : Bool) (info : List Nat)
    (exitCodes : Nat → Int) : List (Int × Option OverallConfig × Int) :=
  (pyRangeI start_count cu_count).enum.map
    (fun p =>
      (p.2 + 1, runnerPayload (p.2 + 1).toNat cu_count.toNat striped info,
        exitCodes p.1))

/-- The argument handling and sweep of `__main__`.  `argsCuCount` is
`args.cu_count` (`none` when the flag is absent; Python's
`if args.cu_count:` is falsy for both `None` and `0`, and in both cases the
count is auto-detected from the hardware).  `hw` is
`pysmctrl.get_tpc_info(args.device)`.  The source imports `pysmctrl`
unconditionally, so the module object is truthy whenever the script runs
and the `args.stripe and not pysmctrl` guard never fires.  Returns the
diagnostics printed during argument handling and the executed sweep
steps. -/
def mainRun (argsCuCount : Option Int) (start_count : Int) (stripe : Bool)
    (hw : Nat) (info : List Nat) : List String × List (Int × Option Int) :=
  let cu_count : Int :=
    match argsCuCount with
    | some c => if c ≠ 0 then c else (hw : Int)
    | none => (hw : Int)
  let msgs1 : List String :=
    match argsCuCount with
    | some c =>
        if c ≠ 0 then
          (if c ≤ 0 then ["The CU count must be positive."] else [])
        else ["Auto-detected a cu_count of " ++ toString (hw : Nat)]
    | none => ["Auto-detected a cu_count of " ++ toString (hw : Nat)]
  let msgs2 : List String :=
    if cu_count > (hw : Int) then
      ["The CU count must not exceed the number of available TPCs."]
    else []
  (msgs1 ++ msgs2, sweepSteps start_count cu_count stripe info)

/-- Two successive allocator calls, each starting from its own fresh copy
of the topology (as in the script, where every striped call re-queries
`pysmctrl.get_gpc_info(dev)` and consumes only its local list). -/
def allocateTwice (active total : Nat) (striped : Bool) (info : List Nat) :
    Option Int × Option Int :=
  (get_cu_mask active total striped info, get_cu_mask active total striped info)

/-- Loop invariant of the striped allocator: after `k` units have been
assigned, `res` holds `k` bits drawn from the topology, every group's
remaining mask is its original mask with the bits of `res` removed, the
per-group assignment counts follow the round-robin formula governed by a
round number `r` and the cursor `g` (groups before the cursor have been
served one extra time, capped by group size), and within each group the
assigned bits are downward closed (lowest-first). -/
def StripeInv (orig : List Nat) (k : Nat) (info : List Nat) (g : Nat) (res : Nat) : Prop :=
  info.length = orig.length ∧
  g < orig.length ∧
  (∀ i, i < orig.length → bits (info.getD i 0) = bits (orig.getD i 0) \ bits res) ∧
  (bits res).card = k ∧
  (∀ b ∈ bits res, ∃ i, i < orig.length ∧ b ∈ bits (orig.getD i 0)) ∧
  (∃ r : Nat, ∀ i, i < orig.length →
      (bits (orig.getD i 0) ∩ bits res).card
        = min (bits (orig.getD i 0)).card (r + if i < g then 1 else 0)) ∧
  (∀ i, i < orig.length → ∀ x y, x ∈ bits (orig.getD i 0) → y ∈ bits (orig.getD i 0) →
      y ∈ bits res → x ≤ y → x ∈ bits res)


theorem mem_bits {n i : Nat} : i ∈ bits n ↔ n.testBit i = true := by
  constructor
  · intro h
    exact (Finset.mem_filter.mp h).2
  · intro h
    refine Finset.mem_filter.mpr ⟨Finset.mem_range.mpr ?_, h⟩
    have h2 : ¬ n < 2 ^ i := fun hlt => by
      simp [Nat.testBit_lt_two_pow hlt] at h
    have : 2 ^ i ≤ n := Nat.le_of_not_lt h2
    exact Nat.lt_succ_of_lt (Nat.lt_of_lt_of_le (Nat.lt_two_pow i) this)

theorem bits_zero : bits 0 = ∅ := by
  ext i
  simp [mem_bits, Nat.zero_testBit]

theorem bits_inj {a b : Nat} (h : bits a = bits b) : a = b := by
  apply Nat.eq_of_testBit_eq
  intro i
  have := congrArg (fun s => i ∈ s) h
  by_cases ha : a.testBit i = true
  · have hb : i ∈ bits b := by
      rw [← h]; exact mem_bits.mpr ha
    rw [ha, (mem_bits.mp hb)]
  · by_cases hb : b.testBit i = true
    · exact absurd (mem_bits.mp (h ▸ mem_bits.mpr hb)) ha
    · rw [Bool.eq_false_iff.mpr ha, Bool.eq_false_iff.mpr hb]

theorem bits_eq_empty {n : Nat} : bits n = ∅ ↔ n = 0 := by
  constructor
  · intro h
    exact bits_inj (h.trans bits_zero.symm)
  · intro h
    simp [h, bits_zero]

theorem bits_lor (a b : Nat) : bits (a ||| b) = bits a ∪ bits b := by
  ext i
  simp [mem_bits, Nat.testBit_lor]

theorem bits_land (a b : Nat) : bits (a &&& b) = bits a ∩ bits b := by
  ext i
  simp [mem_bits, Nat.testBit_land]

theorem land_eq_zero_iff {a b : Nat} : a &&& b = 0 ↔ bits a ∩ bits b = ∅ := by
  constructor
  · intro h
    rw [← bits_land, h, bits_zero]
  · intro h
    exact bits_inj ((bits_land a b).trans (h.trans bits_zero.symm))

theorem mem_bits_zero_iff {n : Nat} : 0 ∈ bits n ↔ n % 2 = 1 := by
  simp [mem_bits, Nat.testBit_zero]

theorem mem_bits_succ {n i : Nat} : (i+1) ∈ bits n ↔ i ∈ bits (n / 2) := by
  simp [mem_bits, Nat.testBit_succ]

theorem bits_eq_half (n : Nat) :
    bits n = (if n % 2 = 1 then {0} else ∅) ∪ (bits (n / 2)).image (· + 1) := by
  ext i
  cases i with
  | zero =>
    simp only [Finset.mem_union, Finset.mem_image, mem_bits_zero_iff]
    constructor
    · intro h
      left
      simp [h]
    · intro h
      rcases h with h | ⟨j, _, hj⟩
      · by_cases hpar : n % 2 = 1
        · exact hpar
        · simp [hpar] at h
      · exact absurd hj (by omega)
  | succ i =>
    simp only [Finset.mem_union, Finset.mem_image, mem_bits_succ]
    constructor
    · intro h
      right
      exact ⟨i, h, rfl⟩
    · intro h
      rcases h with h | ⟨j, hj, hji⟩
      · by_cases hpar : n % 2 = 1 <;> simp [hpar] at h
      · have : j = i := by omega
        exact this ▸ hj

theorem popcount_eq_card_bits (n : Nat) : popcount n = (bits n).card := by
  induction n using Nat.strong_induction_on with
  | _ n ih =>
    match n with
    | 0 => simp [popcount, bits_zero]
    | m+1 =>
      have hrec : popcount (m+1) = popcount ((m+1) / 2) + (m+1) % 2 := by
        rw [popcount]
      have hlt : (m+1) / 2 < m + 1 := Nat.div_lt_self (Nat.succ_pos m) Nat.one_lt_two
      rw [hrec, ih _ hlt, bits_eq_half (m+1)]
      have hdisj : Disjoint (if (m+1) % 2 = 1 then ({0} : Finset ℕ) else ∅)
          ((bits ((m+1) / 2)).image (· + 1)) := by
        by_cases hpar : (m+1) % 2 = 1 <;> simp [hpar, Finset.disjoint_left]
      rw [Finset.card_union_of_disjoint hdisj,
        Finset.card_image_of_injective _ (fun a b h => by omega)]
      by_cases hpar : (m+1) % 2 = 1 <;> simp [hpar] <;> omega

theorem lowBit_zero : lowBit 0 = 0 := rfl

theorem testBit_two_mul_succ (x i : Nat) : (2 * x).testBit (i+1) = x.testBit i := by
  rw [show i + 1 = Nat.succ i from rfl, Nat.testBit_succ]
  congr 1
  omega

theorem testBit_two_mul_zero (x : Nat) : (2 * x).testBit 0 = false := by
  rw [Nat.testBit_zero]
  simp

theorem land_pred_odd {m : Nat} (h : m % 2 = 1) : m &&& (m - 1) = m - 1 := by
  apply Nat.eq_of_testBit_eq
  intro i
  cases i with
  | zero =>
    rw [Nat.testBit_land, Nat.testBit_zero, Nat.testBit_zero]
    have h1 : (m - 1) % 2 = 0 := by omega
    simp [h1]
  | succ i =>
    rw [Nat.testBit_land, Nat.testBit_succ, Nat.testBit_succ]
    have h1 : (m - 1) / 2 = m / 2 := by omega
    rw [h1, Bool.and_self]

theorem land_pred_even {m : Nat} (h : m % 2 = 0) :
    m &&& (m - 1) = 2 * ((m / 2) &&& (m / 2 - 1)) := by
  apply Nat.eq_of_testBit_eq
  intro i
  cases i with
  | zero =>
    rw [Nat.testBit_land, Nat.testBit_zero, testBit_two_mul_zero]
    have h1 : decide (m % 2 = 1) = false := by
      simp
      omega
    rw [h1, Bool.false_and]
  | succ i =>
    rw [Nat.testBit_land, Nat.testBit_succ, Nat.testBit_succ, testBit_two_mul_succ,
      Nat.testBit_land]
    have h1 : (m - 1) / 2 = m / 2 - 1 := by omega
    rw [h1]

theorem lowBit_odd {m : Nat} (h : m % 2 = 1) : lowBit m = 1 := by
  unfold lowBit
  rw [land_pred_odd h]
  omega

theorem lowBit_even {m : Nat} (h : m % 2 = 0) :
    lowBit m = 2 * lowBit (m / 2) := by
  unfold lowBit
  rw [land_pred_even h]
  have hle : (m / 2) &&& (m / 2 - 1) ≤ m / 2 := Nat.and_le_left
  omega

theorem bits_two_mul (x : Nat) : bits (2 * x) = (bits x).image (· + 1) := by
  rw [bits_eq_half (2 * x)]
  have h1 : (2 * x) % 2 = 0 := by omega
  have h2 : (2 * x) / 2 = x := by omega
  simp [h1, h2]

/-- Full characterisation of `lowBit` for nonzero inputs: it is `2 ^ j`
where `j` is the least set bit, and subtracting it clears exactly bit `j`. -/
theorem lowBit_spec : ∀ m : Nat, m ≠ 0 →
    ∃ j, bits (lowBit m) = {j} ∧ j ∈ bits m ∧ (∀ i ∈ bits m, j ≤ i) ∧
      lowBit m ≤ m ∧ bits (m - lowBit m) = bits m \ {j} := by
  intro m
  induction m using Nat.strong_induction_on with
  | _ m ih =>
    intro hm
    match m, hm with
    | n+1, _ =>
      by_cases hpar : (n+1) % 2 = 1
      · -- odd case: lowest bit is bit 0
        refine ⟨0, ?_, ?_, ?_, ?_, ?_⟩
        · rw [lowBit_odd hpar]
          decide
        · exact mem_bits_zero_iff.mpr hpar
        · intro i _
          exact Nat.zero_le i
        · have := lowBit_odd hpar
          omega
        · have hlb : lowBit (n+1) = 1 := lowBit_odd hpar
          rw [hlb]
          ext i
          cases i with
          | zero =>
            simp only [Finset.mem_sdiff, Finset.mem_singleton, mem_bits_zero_iff,
              not_true, and_false, iff_false]
            omega
          | succ i =>
            have hhalf : n / 2 = (n+1) / 2 := by omega
            simp [mem_bits_succ, hhalf]
      · -- even case: recurse on the half
        have hk : (n+1) / 2 ≠ 0 := by omega
        have hlt : (n+1) / 2 < n+1 := Nat.div_lt_self (Nat.succ_pos n) Nat.one_lt_two
        obtain ⟨j, hb1, hb2, hb3, hb4, hb5⟩ := ih _ hlt hk
        have hlb : lowBit (n+1) = 2 * lowBit ((n+1) / 2) :=
          lowBit_even (by omega)
        have heven : (n+1) = 2 * ((n+1) / 2) := by omega
        refine ⟨j+1, ?_, ?_, ?_, ?_, ?_⟩
        · rw [hlb, bits_two_mul, hb1, Finset.image_singleton]
        · rw [heven, bits_two_mul]
          exact Finset.mem_image.mpr ⟨j, hb2, rfl⟩
        · intro i hi
          rw [heven, bits_two_mul] at hi
          obtain ⟨i', hi', rfl⟩ := Finset.mem_image.mp hi
          exact Nat.succ_le_succ (hb3 i' hi')
        · rw [hlb]
          omega
        · have hsub : n+1 - lowBit (n+1) = 2 * ((n+1) / 2 - lowBit ((n+1) / 2)) := by
            rw [hlb]
            omega
          rw [hsub, bits_two_mul, hb5,
            Finset.image_sdiff _ _ (fun a b h => by omega), Finset.image_singleton]
          conv_rhs => rw [heven, bits_two_mul]

theorem lowBit_eq_zero_iff {m : Nat} : lowBit m = 0 ↔ m = 0 := by
  constructor
  · intro h
    by_contra hm
    obtain ⟨j, hb1, _⟩ := lowBit_spec m hm
    rw [h, bits_zero] at hb1
    exact absurd hb1.symm (Finset.singleton_ne_empty j)
  · intro h
    simp [h, lowBit_zero]

/-! ## Hex-string encoding -/

theorem natToDigitsBE_length (w : Nat) : ∀ n, (natToDigitsBE w n).length = w := by
  induction w with
  | zero => intro n; rfl
  | succ w ih =>
    intro n
    show (natToDigitsBE w n).length + 1 = w + 1
    rw [ih]

theorem natToDigitsBE_lt (w : Nat) : ∀ n, ∀ d ∈ natToDigitsBE w n, d < 16 := by
  induction w with
  | zero => intro n d hd; simp [natToDigitsBE] at hd
  | succ w ih =>
    intro n d hd
    rcases List.mem_cons.mp hd with h | h
    · subst h
      exact Nat.mod_lt _ (by norm_num)
    · exact ih n d h

theorem foldl_digitsBE (w : Nat) : ∀ n a : Nat,
    (natToDigitsBE w n).foldl (fun acc d => 16 * acc + d) a = a * 16 ^ w + n % 16 ^ w := by
  induction w with
  | zero =>
    intro n a
    simp [natToDigitsBE, Nat.mod_one]
  | succ w ih =>
    intro n a
    show (natToDigitsBE w n).foldl (fun acc d => 16 * acc + d) (16 * a + n / 16 ^ w % 16)
        = a * 16 ^ (w + 1) + n % 16 ^ (w + 1)
    rw [ih, pow_succ, Nat.mod_mul]
    ring

theorem hexVal_hexChar : ∀ d : Nat, d < 16 → hexVal (hexChar d) = d := by decide

theorem foldl_hexVal (l : List Nat) (hl : ∀ d ∈ l, d < 16) : ∀ a : Nat,
    l.foldl (fun acc c => 16 * acc + hexVal (hexChar c)) a
      = l.foldl (fun acc d => 16 * acc + d) a := by
  induction l with
  | nil => intro a; rfl
  | cons d t ih =>
    intro a
    show t.foldl _ (16 * a + hexVal (hexChar d)) = t.foldl _ (16 * a + d)
    rw [hexVal_hexChar d (hl d (List.mem_cons_self d t))]
    exact ih (fun e he => hl e (List.mem_cons_of_mem d he)) _

theorem toU64_lt (x : Int) : toU64 x < 2 ^ 64 := by
  unfold toU64
  have hne : ((2:Int) ^ 64) ≠ 0 := by norm_num
  have h1 : 0 ≤ x % (2 ^ 64 : Int) := Int.emod_nonneg x hne
  have h2 : x % (2 ^ 64 : Int) < 2 ^ 64 := Int.emod_lt_of_pos x (by norm_num)
  have h3 : ((2:Int) ^ 64) = 18446744073709551616 := by norm_num
  rw [h3] at h1 h2
  show ((x % (2 ^ 64 : Int)).toNat) < 2 ^ 64
  rw [h3]
  omega

theorem decodeHex_hex (x : Int) : decodeHex (cu_mask_to_hex_string x) = toU64 x := by
  show ((natToDigitsBE 16 (toU64 x)).map hexChar).foldl (fun a c => 16 * a + hexVal c) 0
      = toU64 x
  rw [List.foldl_map, foldl_hexVal _ (natToDigitsBE_lt 16 (toU64 x)), foldl_digitsBE]
  have h1 : (16:Nat) ^ 16 = 2 ^ 64 := by norm_num
  have h2 : toU64 x % 16 ^ 16 = toU64 x := Nat.mod_eq_of_lt (h1 ▸ toU64_lt x)
  rw [h2]
  ring

theorem hex_length (x : Int) : (cu_mask_to_hex_string x).length = 16 := by
  show ((natToDigitsBE 16 (toU64 x)).map hexChar).length = 16
  rw [List.length_map, natToDigitsBE_length]

theorem hex_eq_iff (g i : Int) :
    cu_mask_to_hex_string g = cu_mask_to_hex_string i ↔ toU64 g = toU64 i := by
  constructor
  · intro h
    rw [← decodeHex_hex g, ← decodeHex_hex i, h]
  · intro h
    unfold cu_mask_to_hex_string
    rw [h]

/-! ## Contiguous mask -/

theorem popcount_rec {k : Nat} (h : k ≠ 0) : popcount k = popcount (k / 2) + k % 2 := by
  match k, h with
  | n+1, _ => rw [popcount]

theorem popcount_two_pow_sub_one : ∀ n : Nat, popcount (2 ^ n - 1) = n := by
  intro n
  induction n with
  | zero => rw [show (2:Nat) ^ 0 - 1 = 0 by norm_num, popcount]
  | succ n ih =>
    have hx : (1:Nat) ≤ 2 ^ n := Nat.one_le_two_pow
    have hs : (2:Nat) ^ (n+1) = 2 ^ n * 2 := pow_succ 2 n
    have hne : (2:Nat) ^ (n+1) - 1 ≠ 0 := by omega
    rw [popcount_rec hne]
    have hdiv : (2 ^ (n+1) - 1) / 2 = 2 ^ n - 1 := by omega
    have hmod : (2 ^ (n+1) - 1) % 2 = 1 := by omega
    rw [hdiv, hmod, ih]

theorem lor_one_even {y : Nat} (h : y % 2 = 0) : y ||| 1 = y + 1 := by
  apply bits_inj
  rw [bits_lor]
  have hb1 : bits 1 = {0} := by decide
  have hy : bits y = (bits (y / 2)).image (· + 1) := by
    rw [bits_eq_half y]
    have h1 : ¬ (y % 2 = 1) := by omega
    simp [h1]
  have hy1 : bits (y + 1) = {0} ∪ (bits (y / 2)).image (· + 1) := by
    rw [bits_eq_half (y + 1)]
    have h1 : (y + 1) % 2 = 1 := by omega
    have h2 : (y + 1) / 2 = y / 2 := by omega
    simp [h1, h2]
  rw [hb1, hy, hy1, Finset.union_comm]

theorem contigMask_eq : ∀ n : Nat, contigMask n = 2 ^ n - 1 := by
  intro n
  induction n with
  | zero => rfl
  | succ n ih =>
    show (contigMask n <<< 1) ||| 1 = 2 ^ (n+1) - 1
    rw [ih, Nat.shiftLeft_eq, pow_one]
    have hx : (1:Nat) ≤ 2 ^ n := Nat.one_le_two_pow
    have heven : ((2 ^ n - 1) * 2) % 2 = 0 := by omega
    rw [lor_one_even heven]
    have hs : (2:Nat) ^ (n+1) = 2 ^ n * 2 := pow_succ 2 n
    omega

/-! ## Claim theorems (except the striped even-spread claim) -/

/-- C6: for every integer mask, including the negative values produced by
Python's complement, the hex-string encoding is exactly 16 zero-padded
hexadecimal characters, and decoding it as base 16 reproduces the mask's
value truncated to 64 bits. -/
theorem hex_round_trip (x : Int) :
    (cu_mask_to_hex_string x).length = 16 ∧
    decodeHex (cu_mask_to_hex_string x) = toU64 x :=
  ⟨hex_length x, decodeHex_hex x⟩

/-- C4: for every `n ≤ total_count ≤ 64` the contiguous allocator returns a
mask whose bitwise complement, truncated to 64 bits, has exactly `n` set
bits and those bits occupy exactly the lowest `n` positions. -/
theorem contiguous_lowest_bits (n total : Nat) (info : List Nat)
    (h1 : n ≤ total) (h2 : total ≤ 64) :
    ∃ mask : Int,
      get_cu_mask n total false info = some mask ∧
      popcount (toU64 (pyNot mask)) = n ∧
      ∀ i : Nat, ((toU64 (pyNot mask)).testBit i = true ↔ i < n) := by
  refine ⟨pyNot (contigMask n), rfl, ?_⟩
  have hp : pyNot (pyNot ((contigMask n : Nat) : Int)) = ((contigMask n : Nat) : Int) := by
    unfold pyNot
    ring
  have hc : contigMask n = 2 ^ n - 1 := contigMask_eq n
  have hlt : ((contigMask n : Nat) : Int) < 2 ^ 64 := by
    have hn64 : n ≤ 64 := le_trans h1 h2
    have hpow : (2:Nat) ^ n ≤ 2 ^ 64 := Nat.pow_le_pow_right (by norm_num) hn64
    have : (contigMask n : Nat) < 2 ^ 64 := by omega
    exact_mod_cast this
  have htu : toU64 (pyNot (pyNot ((contigMask n : Nat) : Int))) = contigMask n := by
    rw [hp]
    unfold toU64
    rw [Int.emod_eq_of_lt (by positivity) hlt]
    simp
  constructor
  · rw [htu, hc, popcount_two_pow_sub_one]
  · intro i
    rw [htu, hc, Nat.testBit_two_pow_sub_one]
    simp

/-- Witness for the contiguous claim at `n = 3`, `total = 4`. -/
theorem contiguous_lowest_bits_witness :
    (3 ≤ 4 ∧ 4 ≤ 64) ∧
    (∃ mask : Int,
      get_cu_mask 3 4 false [] = some mask ∧
      popcount (toU64 (pyNot mask)) = 3 ∧
      ∀ i : Nat, ((toU64 (pyNot mask)).testBit i = true ↔ i < 3)) :=
  ⟨by decide, contiguous_lowest_bits 3 4 [] (by decide) (by decide)⟩

/-- C3: with `start_count = 2` and `total_count = 5` the sweep issues
exactly three steps, requesting 3, 4 then 5 active units in that order;
each step's mask is computed freshly from the full topology, and each list
entry corresponds to exactly one Runner invocation, run to completion
before the next entry begins. -/
theorem sweep_ordering (striped : Bool) (info : List Nat) :
    sweepSteps 2 5 striped info =
      [(3, get_cu_mask 3 5 striped info),
       (4, get_cu_mask 4 5 striped info),
       (5, get_cu_mask 5 5 striped info)] ∧
    (sweepSteps 2 5 striped info).length = 3 :=
  ⟨rfl, rfl⟩

/-- C2 (documents the code bug): requesting 10 units against the topology
`[0xF, 0xF]`, whose groups sum to 8 set bits, makes the striped allocator's
inner while-loop cycle over exhausted groups forever — modelled by the
fuel-bounded scan returning `none` — so no mask is ever produced, no
`InsufficientUnitsError` (or any exception) is raised, and the Runner
subprocess is never started for that step. -/
theorem striped_insufficient_hangs :
    get_cu_mask 10 8 true [15, 15] = none ∧
    runnerPayload 10 8 true [15, 15] = none ∧
    ([15, 15].map popcount).sum = 8 :=
  ⟨rfl, rfl, by simp [popcount]⟩

/-- C7: striped (and contiguous) allocation is deterministic — two calls,
each starting from an identical fresh copy of the topology, return the same
mask; moreover the result depends only on the requested count, the mode and
the topology (the `total_cus` argument is ignored by the source). -/
theorem allocator_deterministic (active total total' : Nat) (striped : Bool)
    (info : List Nat) :
    (allocateTwice active total striped info).1
        = (allocateTwice active total striped info).2 ∧
    get_cu_mask active total striped info = get_cu_mask active total' striped info :=
  ⟨rfl, rfl⟩

/-- C8 (documents the code bug): an explicit `cu_count` of 9 against 8
hardware TPCs only prints the diagnostic and then runs all 9 sweep steps
anyway, invoking the Runner for each; an explicit non-positive `cu_count`
of -3 prints its diagnostic and falls through to an empty loop, exiting
normally.  In neither case does any error abort the sweep before steps
run. -/
theorem invalid_range_not_fatal :
    (mainRun (some 9) 0 false 8 []).1 =
      ["The CU count must not exceed the number of available TPCs."] ∧
    ((mainRun (some 9) 0 false 8 []).2).length = 9 ∧
    (mainRun (some (-3)) 0 false 8 []).1 = ["The CU count must be positive."] ∧
    (mainRun (some (-3)) 0 false 8 []).2 = [] :=
  ⟨rfl, rfl, rfl, rfl⟩

/-- C9 counterexample: a three-step sweep whose first Runner exits with
status 1 still executes all three steps and delivers all three payloads —
a non-zero exit status does not stop the sweep, refuting the claim that no
subsequent step is started. -/
theorem runner_exit_ignored_cex :
    (sweepWithExits 0 3 false [] (fun i => if i = 0 then 1 else 0)).length = 3 ∧
    (sweepWithExits 0 3 false [] (fun i => if i = 0 then 1 else 0)).map
        (fun s => s.2.2) = [1, 0, 0] ∧
    ∀ s ∈ sweepWithExits 0 3 false [] (fun i => if i = 0 then 1 else 0),
      s.2.1 ≠ none := by
  refine ⟨rfl, rfl, ?_⟩
  decide

/-- C9 amended: `run_process` never reads the subprocess's exit status and
the sweep loop continues unconditionally, so the steps executed and the
payloads delivered are identical under any two assignments of Runner exit
statuses. -/
theorem runner_exit_ignored (start total : Int) (striped : Bool) (info : List Nat)
    (codes codes' : Nat → Int) :
    (sweepWithExits start total striped info codes).map (fun s => (s.1, s.2.1)) =
      (sweepWithExits start total striped info codes').map (fun s => (s.1, s.2.1)) := by
  unfold sweepWithExits
  rw [List.map_map, List.map_map]
  rfl

/-- C5: every allocator-produced mask yields a configuration with exactly
one benchmark entry; its `sm_mask` is the zero-padded 16-hex-digit string
of the mask, its `label` is the decimal string of the number of enabled
units counted from the mask's complement (not the requested count), and its
log filename encodes the hex mask with a `striped_` prefix exactly when
striping was used. -/
theorem config_fields (active total : Nat) (striped : Bool) (info : List Nat)
    (m : Int) (h : get_cu_mask active total striped info = some m) :
    (generate_config m striped).benchmarks.length = 1 ∧
    ∀ pc ∈ (generate_config m striped).benchmarks,
      pc.sm_mask = cu_mask_to_hex_string m ∧
      pc.sm_mask.length = 16 ∧
      (∃ res : Nat, m = pyNot ((res : Nat) : Int) ∧ pc.label = toString (popcount res)) ∧
      pc.log_name = "cu_mask_" ++ (if striped then "striped_" ++ cu_mask_to_hex_string m
          else cu_mask_to_hex_string m) ++ ".json" := by
  have hres : ∃ res : Nat, m = pyNot ((res : Nat) : Int) := by
    cases striped with
    | false =>
      refine ⟨contigMask active, ?_⟩
      simp [get_cu_mask] at h
      exact h.symm
    | true =>
      cases heq : stripeLoop active info 0 0 with
      | none =>
        simp [get_cu_mask, heq] at h
      | some t =>
        obtain ⟨r, ri, rg⟩ := t
        simp [get_cu_mask, heq] at h
        exact ⟨r, h.symm⟩
  obtain ⟨res, hm⟩ := hres
  constructor
  · rfl
  · intro pc hpc
    have hpc1 : pc = (generate_config m striped).benchmarks.head (by simp [generate_config]) := by
      simpa [generate_config] using hpc
    refine ⟨?_, ?_, ?_, ?_⟩
    · rw [hpc1]; rfl
    · rw [hpc1]
      exact hex_length m
    · refine ⟨res, hm, ?_⟩
      rw [hpc1]
      show toString (pyBinCount (pyNot m)) = toString (popcount res)
      have h1 : pyNot m = ((res : Nat) : Int) := by
        rw [hm]
        unfold pyNot
        ring
      rw [h1]
      unfold pyBinCount
      rw [Int.natAbs_ofNat]
    · rw [hpc1]
      rfl

/-- Witness for the configuration-fields claim at a contiguous mask of two
units (`m = -4 = ~0b11`). -/
theorem config_fields_witness :
    get_cu_mask 2 4 false [] = some (-4) ∧
    ((generate_config (-4) false).benchmarks.length = 1 ∧
    ∀ pc ∈ (generate_config (-4) false).benchmarks,
      pc.sm_mask = cu_mask_to_hex_string (-4) ∧
      pc.sm_mask.length = 16 ∧
      (∃ res : Nat, (-4 : Int) = pyNot ((res : Nat) : Int) ∧
        pc.label = toString (popcount res)) ∧
      pc.log_name = "cu_mask_" ++ (if false then "striped_" ++ cu_mask_to_hex_string (-4)
          else cu_mask_to_hex_string (-4)) ++ ".json") :=
  ⟨by decide, config_fields 2 4 false [] (-4) (by decide)⟩

/-- C10: `run_process` builds the delivered payload from the module-level
global `cu_mask`, not from its `int_cu_mask` parameter: with no such global
in scope the call fails with a name-resolution error instead of producing a
configuration, and when the global is bound the embedded mask string equals
the parameter's exactly when the two agree as 64-bit values (as the main
sweep loop arranges by storing the step's mask in the global). -/
theorem run_process_uses_global :
    (∀ (i : Int) (s : Bool), run_process none i s = .error .nameError) ∧
    (∀ (g i : Int) (s : Bool),
        run_process (some g) i s =
          .ok (generate_config g s,
            "Starting test with CU mask " ++ cu_mask_to_hex_string i)) ∧
    (∀ (g i : Int) (s : Bool), ∀ pc ∈ (generate_config g s).benchmarks,
        (pc.sm_mask = cu_mask_to_hex_string i ↔ toU64 g = toU64 i)) := by
  refine ⟨fun i s => rfl, fun g i s => rfl, ?_⟩
  intro g i s pc hpc
  have hpc1 : pc = (generate_config g s).benchmarks.head (by simp [generate_config]) := by
    simpa [generate_config] using hpc
  rw [hpc1]
  show cu_mask_to_hex_string g = cu_mask_to_hex_string i ↔ toU64 g = toU64 i
  exact hex_eq_iff g i

/-! ## The striped allocator: round-robin even-spread -/

theorem getD_set_self {l : List Nat} {u x : Nat} (h : u < l.length) :
    (l.set u x).getD u 0 = x := by
  rw [List.getD_eq_getElem?_getD, List.getElem?_set_self h]
  rfl

theorem getD_set_ne {l : List Nat} {u i x : Nat} (h : u ≠ i) :
    (l.set u x).getD i 0 = l.getD i 0 := by
  rw [List.getD_eq_getElem?_getD, List.getElem?_set_ne h, ← List.getD_eq_getElem?_getD]

theorem findNext_succ_zero (info : List Nat) (g fuel : Nat) (h : info.getD g 0 = 0) :
    findNext info g (fuel+1) = findNext info ((g + 1) % info.length) fuel := by
  rw [findNext, h, lowBit_zero, if_pos rfl]

theorem findNext_succ_hit (info : List Nat) (g fuel : Nat) (h : info.getD g 0 ≠ 0) :
    findNext info g (fuel+1) = some (g, lowBit (info.getD g 0)) := by
  have hnz : ¬ lowBit (info.getD g 0) = 0 := fun hc => h (lowBit_eq_zero_iff.mp hc)
  rw [findNext, if_neg hnz]

theorem findNext_skip (info : List Nat) :
    ∀ (f g rest : Nat), g < info.length → g + f ≤ info.length →
      (∀ j, g ≤ j → j < g + f → info.getD j 0 = 0) →
      findNext info g (f + rest) = findNext info ((g + f) % info.length) rest := by
  intro f
  induction f with
  | zero =>
    intro g rest hg _ _
    rw [Nat.add_zero, Nat.mod_eq_of_lt hg, Nat.zero_add]
  | succ f ih =>
    intro g rest hg hle hemp
    have hg0 : info.getD g 0 = 0 := hemp g le_rfl (by omega)
    have harr : f + 1 + rest = (f + rest) + 1 := by omega
    rw [harr, findNext_succ_zero info g (f + rest) hg0]
    by_cases hg1 : g + 1 < info.length
    · rw [Nat.mod_eq_of_lt hg1]
      have hstep := ih (g + 1) rest hg1 (by omega)
        (fun j hj1 hj2 => hemp j (by omega) (by omega))
      have harr2 : g + (f + 1) = g + 1 + f := by omega
      rw [harr2]
      exact hstep
    · have hf0 : f = 0 := by omega
      subst hf0
      rw [Nat.zero_add]

theorem findNext_found (info : List Nat) (g : Nat) (hg : g < info.length)
    (hex : ∃ i, i < info.length ∧ info.getD i 0 ≠ 0) :
    ∃ u, u < info.length ∧ info.getD u 0 ≠ 0 ∧
      findNext info g info.length = some (u, lowBit (info.getD u 0)) ∧
      ((g ≤ u ∧ ∀ j, g ≤ j → j < u → info.getD j 0 = 0) ∨
       (u < g ∧ (∀ j, g ≤ j → j < info.length → info.getD j 0 = 0) ∧
         (∀ j, j < u → info.getD j 0 = 0))) := by
  by_cases hA : ∃ j, g ≤ j ∧ j < info.length ∧ info.getD j 0 ≠ 0
  · -- a nonzero group at or after the cursor: take the first one
    have hu := Nat.find_spec hA
    set u := Nat.find hA with hu_def
    obtain ⟨hgu, hulen, hunz⟩ := hu
    have hmin : ∀ j, g ≤ j → j < u → info.getD j 0 = 0 := by
      intro j hj1 hj2
      by_contra hj
      exact absurd (Nat.find_min' hA ⟨hj1, by omega, hj⟩) (by omega)
    refine ⟨u, hulen, hunz, ?_, Or.inl ⟨hgu, hmin⟩⟩
    have hfuel : info.length = (u - g) + (info.length - (u - g)) := by omega
    have hrest : info.length - (u - g) = (info.length - (u - g) - 1) + 1 := by omega
    rw [hfuel, findNext_skip info (u - g) g _ hg (by omega)
      (fun j hj1 hj2 => hmin j hj1 (by omega))]
    have hgu' : g + (u - g) = u := by omega
    rw [hgu', Nat.mod_eq_of_lt hulen, hrest, findNext_succ_hit info u _ hunz]
  · -- every group from the cursor to the end is exhausted: wrap to 0
    have htail : ∀ j, g ≤ j → j < info.length → info.getD j 0 = 0 := by
      intro j hj1 hj2
      by_contra hj
      exact hA ⟨j, hj1, hj2, hj⟩
    obtain ⟨i0, hi0len, hi0nz⟩ := hex
    have hi0g : i0 < g := by
      by_contra hcon
      exact hi0nz (htail i0 (by omega) hi0len)
    have hB : ∃ j, j < g ∧ info.getD j 0 ≠ 0 := ⟨i0, hi0g, hi0nz⟩
    have hu := Nat.find_spec hB
    set u := Nat.find hB with hu_def
    obtain ⟨hug, hunz⟩ := hu
    have hmin : ∀ j, j < u → info.getD j 0 = 0 := by
      intro j hj
      by_contra hjc
      exact absurd (Nat.find_min' hB ⟨by omega, hjc⟩) (by omega)
    refine ⟨u, by omega, hunz, ?_, Or.inr ⟨hug, htail, hmin⟩⟩
    have hfuel : info.length = (info.length - g) + g := by omega
    rw [hfuel, findNext_skip info (info.length - g) g _ hg (by omega)
      (fun j hj1 hj2 => htail j hj1 (by omega))]
    have hwrap : g + (info.length - g) = info.length := by omega
    rw [hwrap, Nat.mod_self]
    have hfuel2 : g = u + (g - u) := by omega
    rw [hfuel2, findNext_skip info u 0 _ (by omega) (by omega)
      (fun j hj1 hj2 => hmin j (by omega))]
    have hrest : g - u = (g - u - 1) + 1 := by omega
    rw [Nat.zero_add, Nat.mod_eq_of_lt (by omega : u < info.length), hrest,
      findNext_succ_hit info u _ hunz]

/-- One striped assignment preserves the loop invariant and assigns one
more unit. -/
theorem stripeInv_step (orig : List Nat)
    (hdisj : ∀ i j, i < orig.length → j < orig.length → i ≠ j →
        orig.getD i 0 &&& orig.getD j 0 = 0)
    (k : Nat) (info : List Nat) (g : Nat) (res : Nat)
    (hinv : StripeInv orig k info g res)
    (hmore : ∃ i, i < info.length ∧ info.getD i 0 ≠ 0) :
    ∃ u next_bit, findNext info g info.length = some (u, next_bit) ∧
      StripeInv orig (k+1) (info.set u (info.getD u 0 - next_bit))
        ((u + 1) % info.length) (res ||| next_bit) := by
  obtain ⟨hlen, hg, hrem, hcard, hsubu, ⟨r, hcount⟩, hdc⟩ := hinv
  have hglen : g < info.length := by omega
  have hlenpos : 0 < info.length := by omega
  obtain ⟨u, hulen, hunz, hfind, hscan⟩ := findNext_found info g hglen hmore
  have hulen' : u < orig.length := by omega
  obtain ⟨j, hj_single, hj_mem, hj_least, hb_le, hj_sub⟩ :=
    lowBit_spec (info.getD u 0) hunz
  refine ⟨u, lowBit (info.getD u 0), hfind, ?_⟩
  have hrem_u : bits (info.getD u 0) = bits (orig.getD u 0) \ bits res := hrem u hulen'
  have hj_orig : j ∈ bits (orig.getD u 0) := by
    have h1 := hj_mem
    rw [hrem_u] at h1
    exact (Finset.mem_sdiff.mp h1).1
  have hj_nres : j ∉ bits res := by
    have h1 := hj_mem
    rw [hrem_u] at h1
    exact (Finset.mem_sdiff.mp h1).2
  have hj_nother : ∀ i, i < orig.length → i ≠ u → j ∉ bits (orig.getD i 0) := by
    intro i hi hne hjin
    have hz := land_eq_zero_iff.mp (hdisj u i hulen' hi (fun hc => hne hc.symm))
    have h2 : j ∈ bits (orig.getD u 0) ∩ bits (orig.getD i 0) :=
      Finset.mem_inter.mpr ⟨hj_orig, hjin⟩
    rw [hz] at h2
    exact absurd h2 (Finset.not_mem_empty j)
  have hres' : bits (res ||| lowBit (info.getD u 0)) = insert j (bits res) := by
    rw [bits_lor, hj_single, Finset.union_comm, ← Finset.insert_eq]
  -- intersections with the enlarged result
  have ha'_ne : ∀ i, i < orig.length → i ≠ u →
      bits (orig.getD i 0) ∩ insert j (bits res)
        = bits (orig.getD i 0) ∩ bits res := by
    intro i hi hne
    ext x
    simp only [Finset.mem_inter, Finset.mem_insert]
    constructor
    · rintro ⟨hx1, hx2 | hx3⟩
      · exact absurd (hx2 ▸ hx1) (hj_nother i hi hne)
      · exact ⟨hx1, hx3⟩
    · rintro ⟨hx1, hx2⟩
      exact ⟨hx1, Or.inr hx2⟩
  have ha'_u : bits (orig.getD u 0) ∩ insert j (bits res)
      = insert j (bits (orig.getD u 0) ∩ bits res) := by
    ext x
    simp only [Finset.mem_inter, Finset.mem_insert]
    constructor
    · rintro ⟨hx1, hx2 | hx3⟩
      · exact Or.inl hx2
      · exact Or.inr ⟨hx1, hx3⟩
    · rintro (hx1 | ⟨hx2, hx3⟩)
      · exact ⟨hx1 ▸ hj_orig, Or.inl hx1⟩
      · exact ⟨hx2, Or.inr hx3⟩
  have ha'_u_card : (bits (orig.getD u 0) ∩ insert j (bits res)).card
      = (bits (orig.getD u 0) ∩ bits res).card + 1 := by
    rw [ha'_u, Finset.card_insert_of_not_mem]
    intro hc
    exact hj_nres (Finset.mem_inter.mp hc).2
  -- exhausted groups are fully assigned
  have hexh : ∀ i, i < orig.length → info.getD i 0 = 0 →
      bits (orig.getD i 0) ∩ bits res = bits (orig.getD i 0) := by
    intro i hi hz
    have h1 := hrem i hi
    rw [hz, bits_zero] at h1
    have h2 : bits (orig.getD i 0) ⊆ bits res :=
      Finset.sdiff_eq_empty_iff_subset.mp h1.symm
    exact Finset.inter_eq_left.mpr h2
  -- the used group is not exhausted
  have hau_lt : (bits (orig.getD u 0) ∩ bits res).card < (bits (orig.getD u 0)).card := by
    apply Finset.card_lt_card
    rw [Finset.ssubset_iff_of_subset Finset.inter_subset_left]
    exact ⟨j, hj_orig, fun hc => hj_nres (Finset.mem_inter.mp hc).2⟩
  -- split the round-robin count formula on the cursor position
  have hcount_lt : ∀ i, i < orig.length → i < g →
      (bits (orig.getD i 0) ∩ bits res).card
        = min (bits (orig.getD i 0)).card (r + 1) := by
    intro i hi hig
    have h1 := hcount i hi
    rw [if_pos hig] at h1
    exact h1
  have hcount_ge : ∀ i, i < orig.length → g ≤ i →
      (bits (orig.getD i 0) ∩ bits res).card
        = min (bits (orig.getD i 0)).card r := by
    intro i hi hig
    have h1 := hcount i hi
    rw [if_neg (by omega)] at h1
    simpa using h1
  refine ⟨by rw [List.length_set]; exact hlen, ?_, ?_, ?_, ?_, ?_, ?_⟩
  · -- cursor in range
    have h1 : (u + 1) % info.length < info.length := Nat.mod_lt _ hlenpos
    omega
  · -- remaining masks
    intro i hi
    rw [hres']
    by_cases hiu : i = u
    · subst hiu
      rw [getD_set_self hulen, hj_sub, hrem_u]
      ext x
      simp only [Finset.mem_sdiff, Finset.mem_singleton, Finset.mem_insert]
      constructor
      · rintro ⟨⟨hx1, hx2⟩, hx3⟩
        exact ⟨hx1, fun hc => hc.elim hx3 hx2⟩
      · rintro ⟨hx1, hx2⟩
        exact ⟨⟨hx1, fun hc => hx2 (Or.inr hc)⟩, fun hc => hx2 (Or.inl hc)⟩
    · rw [getD_set_ne (fun hc => hiu hc.symm), hrem i hi]
      ext x
      simp only [Finset.mem_sdiff, Finset.mem_insert]
      constructor
      · rintro ⟨hx1, hx2⟩
        refine ⟨hx1, fun hc => ?_⟩
        rcases hc with hc | hc
        · exact hj_nother i hi hiu (hc ▸ hx1)
        · exact hx2 hc
      · rintro ⟨hx1, hx2⟩
        exact ⟨hx1, fun hc => hx2 (Or.inr hc)⟩
  · -- cardinality of the result
    rw [hres', Finset.card_insert_of_not_mem hj_nres, hcard]
  · -- result bits come from the topology
    intro b hb
    rw [hres'] at hb
    rcases Finset.mem_insert.mp hb with hb | hb
    · exact ⟨u, hulen', hb ▸ hj_orig⟩
    · exact hsubu b hb
  · -- round-robin count formula
    rw [hres']
    rcases hscan with ⟨hgu, hempty⟩ | ⟨hug, htail, hhead⟩
    · -- the scan stayed at or after the cursor
      have hau : (bits (orig.getD u 0) ∩ bits res).card
          = min (bits (orig.getD u 0)).card r := hcount_ge u hulen' hgu
      have hmid : ∀ i, g ≤ i → i < u → (bits (orig.getD i 0)).card ≤ r := by
        intro i hi1 hi2
        have he := hexh i (by omega) (hempty i hi1 hi2)
        have hc := hcount_ge i (by omega) hi1
        rw [he] at hc
        omega
      by_cases hu1 : u + 1 < info.length
      · refine ⟨r, ?_⟩
        intro i hi
        rw [Nat.mod_eq_of_lt hu1]
        by_cases hiu : i = u
        · subst hiu
          rw [ha'_u_card, if_pos (by omega)]
          omega
        · rw [ha'_ne i hi hiu]
          by_cases hig : i < g
          · rw [if_pos (by omega), hcount_lt i hi hig]
          · by_cases hiu1 : i < u
            · rw [if_pos (by omega), hcount_ge i hi (by omega)]
              have := hmid i (by omega) hiu1
              omega
            · rw [if_neg (by omega), hcount_ge i hi (by omega)]
              omega
      · refine ⟨r + 1, ?_⟩
        intro i hi
        have hu1' : u + 1 = info.length := by omega
        rw [hu1', Nat.mod_self, if_neg (by omega)]
        by_cases hiu : i = u
        · subst hiu
          rw [ha'_u_card]
          omega
        · rw [ha'_ne i hi hiu]
          by_cases hig : i < g
          · rw [hcount_lt i hi hig]
          · have hiu1 : i < u := by omega
            rw [hcount_ge i hi (by omega)]
            have := hmid i (by omega) hiu1
            omega
    · -- the scan wrapped around
      have hau : (bits (orig.getD u 0) ∩ bits res).card
          = min (bits (orig.getD u 0)).card (r + 1) := hcount_lt u hulen' (by omega)
      have htail' : ∀ i, g ≤ i → i < orig.length → (bits (orig.getD i 0)).card ≤ r := by
        intro i hi1 hi2
        have he := hexh i hi2 (htail i hi1 (by omega))
        have hc := hcount_ge i hi2 hi1
        rw [he] at hc
        omega
      have hhead' : ∀ i, i < u → (bits (orig.getD i 0)).card ≤ r + 1 := by
        intro i hi
        have he := hexh i (by omega) (hhead i hi)
        have hc := hcount_lt i (by omega) (by omega)
        rw [he] at hc
        omega
      have hu1 : u + 1 < info.length := by omega
      refine ⟨r + 1, ?_⟩
      intro i hi
      rw [Nat.mod_eq_of_lt hu1]
      by_cases hiu : i = u
      · subst hiu
        rw [ha'_u_card, if_pos (by omega)]
        omega
      · rw [ha'_ne i hi hiu]
        by_cases hiu1 : i < u
        · rw [if_pos (by omega)]
          have he := hexh i hi (hhead i hiu1)
          have hc := hcount_lt i hi (by omega)
          rw [he] at hc ⊢
          have := hhead' i hiu1
          omega
        · rw [if_neg (by omega)]
          by_cases hig : i < g
          · rw [hcount_lt i hi hig]
          · have he := hexh i hi (htail i (by omega) (by omega))
            have hc := hcount_ge i hi (by omega)
            rw [he] at hc ⊢
            have := htail' i (by omega) hi
            omega
  · -- lowest-first within each group
    intro i hi x y hx hy hyres hxy
    rw [hres'] at hyres ⊢
    by_cases hiu : i = u
    · rcases Finset.mem_insert.mp hyres with hyj | hyr
      · by_cases hxr : x ∈ bits res
        · exact Finset.mem_insert.mpr (Or.inr hxr)
        · have hxm : x ∈ bits (info.getD u 0) := by
            rw [hrem_u]
            exact Finset.mem_sdiff.mpr ⟨hiu ▸ hx, hxr⟩
          have hle := hj_least x hxm
          have hxj : x = j := by omega
          exact Finset.mem_insert.mpr (Or.inl hxj)
      · exact Finset.mem_insert.mpr (Or.inr (hdc i hi x y hx hy hyr hxy))
    · rcases Finset.mem_insert.mp hyres with hyj | hyr
      · exact absurd (hyj ▸ hy) (hj_nother i hi hiu)
      · exact Finset.mem_insert.mpr (Or.inr (hdc i hi x y hx hy hyr hxy))

theorem sum_map_popcount (l : List Nat) :
    (l.map popcount).sum = ∑ i ∈ Finset.range l.length, (bits (l.getD i 0)).card := by
  induction l with
  | nil => simp
  | cons a t ih =>
    simp only [List.map_cons, List.sum_cons, List.length_cons]
    rw [Finset.sum_range_succ']
    simp only [List.getD_cons_succ, List.getD_cons_zero]
    rw [ih, popcount_eq_card_bits]
    omega

/-- While fewer units are assigned than the topology holds, some group
still has an available bit. -/
theorem stripe_nonzero (orig info : List Nat) (res k : Nat)
    (hdisj : ∀ i j, i < orig.length → j < orig.length → i ≠ j →
        orig.getD i 0 &&& orig.getD j 0 = 0)
    (hlen : info.length = orig.length)
    (hrem : ∀ i, i < orig.length → bits (info.getD i 0) = bits (orig.getD i 0) \ bits res)
    (hcard : (bits res).card = k)
    (hk : k < (orig.map popcount).sum) :
    ∃ i, i < info.length ∧ info.getD i 0 ≠ 0 := by
  by_contra hcon
  push_neg at hcon
  have hsubB : ∀ i, i < orig.length → bits (orig.getD i 0) ⊆ bits res := by
    intro i hi
    have h0 : info.getD i 0 = 0 := hcon i (by omega)
    have h1 := hrem i hi
    rw [h0, bits_zero] at h1
    exact Finset.sdiff_eq_empty_iff_subset.mp h1.symm
  have hB : ((Finset.range orig.length).biUnion (fun i => bits (orig.getD i 0))).card
      = (orig.map popcount).sum := by
    rw [Finset.card_biUnion, sum_map_popcount]
    intro x hx y hy hxy
    rw [Finset.disjoint_iff_inter_eq_empty, ← bits_land,
      hdisj x y (Finset.mem_range.mp hx) (Finset.mem_range.mp hy) hxy, bits_zero]
  have hBsub : ((Finset.range orig.length).biUnion (fun i => bits (orig.getD i 0)))
      ⊆ bits res := by
    intro b hb
    obtain ⟨i, hi, hbi⟩ := Finset.mem_biUnion.mp hb
    exact hsubB i (Finset.mem_range.mp hi) hbi
  have hle := Finset.card_le_card hBsub
  omega

theorem stripeLoop_inv (orig : List Nat)
    (hdisj : ∀ i j, i < orig.length → j < orig.length → i ≠ j →
        orig.getD i 0 &&& orig.getD j 0 = 0) :
    ∀ (b k : Nat) (info : List Nat) (g res : Nat),
      StripeInv orig k info g res →
      k + b ≤ (orig.map popcount).sum →
      ∃ res' info' g', stripeLoop b info g res = some (res', info', g') ∧
        StripeInv orig (k + b) info' g' res' := by
  intro b
  induction b with
  | zero =>
    intro k info g res hinv _
    exact ⟨res, info, g, rfl, by simpa using hinv⟩
  | succ b ih =>
    intro k info g res hinv hle
    have hmore : ∃ i, i < info.length ∧ info.getD i 0 ≠ 0 :=
      stripe_nonzero orig info res k hdisj hinv.1 hinv.2.2.1 hinv.2.2.2.1 (by omega)
    obtain ⟨u, nb, hfind, hinv'⟩ := stripeInv_step orig hdisj k info g res hinv hmore
    obtain ⟨res', info', g', hrun, hinvf⟩ := ih (k+1) _ _ _ hinv' (by omega)
    refine ⟨res', info', g', ?_, ?_⟩
    · rw [stripeLoop, hfind]
      exact hrun
    · have harith : k + (b + 1) = (k + 1) + b := by omega
      rw [harith]
      exact hinvf

theorem stripeInv_init (orig : List Nat) (hne : orig ≠ []) :
    StripeInv orig 0 orig 0 0 := by
  refine ⟨rfl, ?_, ?_, ?_, ?_, ⟨0, ?_⟩, ?_⟩
  · cases orig with
    | nil => exact absurd rfl hne
    | cons a t => simp
  · intro i hi
    rw [bits_zero, Finset.sdiff_empty]
  · rw [bits_zero, Finset.card_empty]
  · intro b hb
    rw [bits_zero] at hb
    exact absurd hb (Finset.not_mem_empty b)
  · intro i hi
    rw [bits_zero, Finset.inter_empty, Finset.card_empty, if_neg (by omega)]
    omega
  · intro i hi x y hx hy hyres hxy
    rw [bits_zero] at hyres
    exact absurd hyres (Finset.not_mem_empty y)

/-- C1, amended: the group masks must additionally be pairwise disjoint
(as hardware group-membership masks are).  For every non-empty topology of
pairwise-disjoint group masks with at least `active_cus` set bits in total,
the striped allocator terminates and returns the bitwise complement of a
selected set `res` of exactly `active_cus` bits, all drawn from the
topology's groups.  The per-group selected counts follow the round-robin
formula `min(capacity, r + 1)` for the `p` groups already served in the
final partial round and `min(capacity, r)` for the rest — hence no group's
count exceeds that of any non-exhausted group by more than one, with the
extra unit going to groups of ascending index — and within each group the
selected bits are downward closed among the group's bits, i.e. always the
lowest remaining set bit. -/
theorem striped_even_spread (active_cus total_cus : Nat) (orig : List Nat)
    (hne : orig ≠ [])
    (hdisj : ∀ i j, i < orig.length → j < orig.length → i ≠ j →
        orig.getD i 0 &&& orig.getD j 0 = 0)
    (hsum : active_cus ≤ (orig.map popcount).sum) :
    ∃ res : Nat,
      get_cu_mask active_cus total_cus true orig = some (pyNot ((res : Nat) : Int)) ∧
      popcount res = active_cus ∧
      (∀ b ∈ bits res, ∃ i, i < orig.length ∧ b ∈ bits (orig.getD i 0)) ∧
      (∃ r p, p ≤ orig.length ∧ ∀ i, i < orig.length →
          (bits (orig.getD i 0) ∩ bits res).card
            = min (bits (orig.getD i 0)).card (r + if i < p then 1 else 0)) ∧
      (∀ i1 i2, i1 < orig.length → i2 < orig.length →
          (bits (orig.getD i2 0) ∩ bits res).card < (bits (orig.getD i2 0)).card →
          (bits (orig.getD i1 0) ∩ bits res).card
            ≤ (bits (orig.getD i2 0) ∩ bits res).card + 1) ∧
      (∀ i, i < orig.length → ∀ x y, x ∈ bits (orig.getD i 0) →
          y ∈ bits (orig.getD i 0) → y ∈ bits res → x ≤ y → x ∈ bits res) := by
  obtain ⟨res, info', g', hrun, hinvf⟩ :=
    stripeLoop_inv orig hdisj active_cus 0 orig 0 0 (stripeInv_init orig hne) (by omega)
  obtain ⟨hlen, hglt, hrem, hcard, hsubu, ⟨r, hcount⟩, hdc⟩ := hinvf
  refine ⟨res, ?_, ?_, hsubu, ⟨r, g', by omega, hcount⟩, ?_, hdc⟩
  · simp [get_cu_mask, hrun]
  · rw [popcount_eq_card_bits]
    omega
  · intro i1 i2 h1 h2 hne2
    have hc1 := hcount i1 h1
    have hc2 := hcount i2 h2
    have e1 : (bits (orig.getD i1 0) ∩ bits res).card ≤ r + 1 := by
      rcases Nat.lt_or_ge i1 g' with h | h
      · rw [if_pos h] at hc1
        omega
      · rw [if_neg (by omega)] at hc1
        omega
    have e2 : r ≤ (bits (orig.getD i2 0) ∩ bits res).card := by
      rcases Nat.lt_or_ge i2 g' with h | h
      · rw [if_pos h] at hc2
        omega
      · rw [if_neg (by omega)] at hc2
        omega
    omega

/-- Witness for the amended striped claim: topology `[0b0101, 0b1010]`
(two disjoint groups of two units each), three units requested. -/
theorem striped_even_spread_witness :
    (([5, 10] : List Nat) ≠ [] ∧
      (∀ i j, i < ([5, 10] : List Nat).length → j < ([5, 10] : List Nat).length → i ≠ j →
        ([5, 10] : List Nat).getD i 0 &&& ([5, 10] : List Nat).getD j 0 = 0) ∧
      3 ≤ (([5, 10] : List Nat).map popcount).sum) ∧
    (∃ res : Nat,
      get_cu_mask 3 2 true [5, 10] = some (pyNot ((res : Nat) : Int)) ∧
      popcount res = 3 ∧
      (∀ b ∈ bits res, ∃ i, i < ([5, 10] : List Nat).length ∧
          b ∈ bits (([5, 10] : List Nat).getD i 0)) ∧
      (∃ r p, p ≤ ([5, 10] : List Nat).length ∧ ∀ i, i < ([5, 10] : List Nat).length →
          (bits (([5, 10] : List Nat).getD i 0) ∩ bits res).card
            = min (bits (([5, 10] : List Nat).getD i 0)).card (r + if i < p then 1 else 0)) ∧
      (∀ i1 i2, i1 < ([5, 10] : List Nat).length → i2 < ([5, 10] : List Nat).length →
          (bits (([5, 10] : List Nat).getD i2 0) ∩ bits res).card
            < (bits (([5, 10] : List Nat).getD i2 0)).card →
          (bits (([5, 10] : List Nat).getD i1 0) ∩ bits res).card
            ≤ (bits (([5, 10] : List Nat).getD i2 0) ∩ bits res).card + 1) ∧
      (∀ i, i < ([5, 10] : List Nat).length → ∀ x y,
          x ∈ bits (([5, 10] : List Nat).getD i 0) →
          y ∈ bits (([5, 10] : List Nat).getD i 0) → y ∈ bits res → x ≤ y →
          x ∈ bits res)) := by
  have hd : ∀ i j, i < ([5, 10] : List Nat).length → j < ([5, 10] : List Nat).length → i ≠ j →
      ([5, 10] : List Nat).getD i 0 &&& ([5, 10] : List Nat).getD j 0 = 0 := by
    intro i j hi hj hne
    have h2 : ([5, 10] : List Nat).length = 2 := rfl
    rw [h2] at hi hj
    interval_cases i <;> interval_cases j <;> first | exact absurd rfl hne | decide
  exact ⟨⟨by decide, hd, by simp [popcount]⟩,
    striped_even_spread 3 2 [5, 10] (by decide) hd (by simp [popcount])⟩

/-- C1 counterexample: the topology `[1, 1]` — two group masks sharing
unit 0, with 2 set bits in total, at least the requested `active_cus = 2` —
makes the allocator pick bit 0 twice: the returned mask is the complement
of `1`, a set with a single bit rather than two distinct bits.  The claim
as stated (quantifying over arbitrary lists of 64-bit group masks) is
therefore false; it holds once the group masks are pairwise disjoint. -/
theorem striped_overlap_cex :
    ([1, 1] : List Nat) ≠ [] ∧
    (([1, 1] : List Nat).map popcount).sum = 2 ∧
    get_cu_mask 2 2 true [1, 1] = some (pyNot ((1 : Nat) : Int)) ∧
    popcount 1 = 1 ∧ (1 : Nat) ≠ 2 :=
  ⟨by decide, by simp [popcount], by decide, by simp [popcount], by decide⟩

end CuMask

